import Mathlib

set_option maxHeartbeats 1000000

/-!
Verification of the SMILES representation-learning core of the DRP repository.

The Python sources are embedded shallowly: SMILES strings and tokens are
lists of characters, vocabularies are ordered token lists, real-valued
losses are rationals, and the stateful training loop is a fold over the
per-epoch validation-loss sequence.  Library string primitives
(str.replace, str.split, str.upper) are modelled with Python semantics.
-/

namespace DRP

/-! ## Python string primitives -/

/-- Uppercasing a string character by character, as Python str.upper does on
the ASCII alphabet used by SMILES strings. -/
def pyUpper (s : List Char) : List Char := s.map Char.toUpper

/-- Worker for pyReplace: scans the string left to right; a positive skip
counter consumes characters belonging to an occurrence that has already been
replaced. -/
def pyReplaceAux (pat rep : List Char) : List Char → ℕ → List Char
  | [], _ => []
  | _ :: rest, skip + 1 => pyReplaceAux pat rep rest skip
  | c :: rest, 0 =>
    if pat.isPrefixOf (c :: rest) then rep ++ pyReplaceAux pat rep rest (pat.length - 1)
    else c :: pyReplaceAux pat rep rest 0

/-- Python str.replace: replaces every non-overlapping occurrence of pat by
rep, scanning left to right.  An empty pattern inserts rep before every
character and at the end, exactly as in Python. -/
def pyReplace (pat rep s : List Char) : List Char :=
  if pat = [] then rep ++ (s.map (fun c => c :: rep)).flatten
  else pyReplaceAux pat rep s 0

/-- Python substring membership (the in operator on strings). -/
def pyContains (pat s : List Char) : Bool :=
  (List.range (s.length + 1)).any (fun i => pat.isPrefixOf (s.drop i))

/-- Worker for pySplit, accumulating the current chunk in reverse. -/
def pySplitAux : List Char → List Char → List (List Char)
  | [], acc => if acc = [] then [] else [acc.reverse]
  | c :: rest, acc =>
    if c.isWhitespace then
      if acc = [] then pySplitAux rest [] else acc.reverse :: pySplitAux rest []
    else pySplitAux rest (c :: acc)

/-- Python str.split() with no separator argument: splits on runs of
whitespace and never returns empty chunks. -/
def pySplit (s : List Char) : List (List Char) := pySplitAux s []

/-- Character-level edit distance (unit-cost insertions, deletions and
substitutions), the quantity computed by Levenshtein.distance. -/
def levenshtein : List Char → List Char → ℕ
  | [], ys => ys.length
  | xs, [] => xs.length
  | x :: xs, y :: ys =>
    if x = y then levenshtein xs ys
    else 1 + min (levenshtein xs (y :: ys)) (min (levenshtein (x :: xs) ys) (levenshtein xs ys))
termination_by xs ys => xs.length + ys.length
decreasing_by all_goals simp_arith

/-! ## Tokenizer and vocabulary (src/unnamed/part_001) -/

/-- custom_tokenizer from the SMILES encoder notebook: for each custom token
occurring in the string, replace every occurrence by the token surrounded by
spaces, then split on whitespace. -/
def custom_tokenizer (custom_tokens : List (List Char)) (smiles_string : List Char) :
    List (List Char) :=
  pySplit (custom_tokens.foldl
    (fun cur token =>
      if pyContains token cur then pyReplace token (' ' :: (token ++ [' '])) cur else cur)
    smiles_string)

/-- The pad special token. -/
def padTok : List Char := "<pad>".data

/-- The unknown special token. -/
def unkTok : List Char := "<unk>".data

/-- The start-of-sequence special token. -/
def sosTok : List Char := "<sos>".data

/-- The end-of-sequence special token. -/
def eosTok : List Char := "<eos>".data

/-- A frozen torchtext vocabulary: the ordered token list, specials first.
Ids are positions in this list. -/
structure Vocab where
  itos : List (List Char)
deriving DecidableEq

/-- The id that torchtext set_default_index fixes for unknown tokens: the
position of the unknown special token in the ordered list. -/
def Vocab.unkId (v : Vocab) : ℕ := v.itos.findIdx (fun u => u = unkTok)

/-- Token-to-id lookup with the default index for out-of-vocabulary tokens,
as the torchtext vocab object behaves after set_default_index. -/
def Vocab.stoi (v : Vocab) (t : List Char) : ℕ :=
  match v.itos.findIdx? (fun u => u = t) with
  | some i => i
  | none => v.unkId

/-- Id-to-token lookup (vocab.lookup_token). -/
def Vocab.lookup_token (v : Vocab) (i : ℕ) : List Char := v.itos.getD i []

/-- encode_smiles_to_indices: start marker id, then the id of each token of
the tokenized string in order, then the end marker id. -/
def encode_smiles_to_indices (custom_tokens : List (List Char)) (v : Vocab)
    (smiles : List Char) : List ℕ :=
  [v.stoi sosTok] ++ (custom_tokenizer custom_tokens smiles).map v.stoi ++ [v.stoi eosTok]

/-- pad_sequence: seq + [vocab pad id] * (max_len - len(seq)); the Python
product of a list with a negative number is the empty list, which truncated
natural subtraction renders exactly. -/
def pad_sequence (v : Vocab) (seq : List ℕ) (max_len : ℕ) : List ℕ :=
  seq ++ List.replicate (max_len - seq.length) (v.stoi padTok)

/-- decode_sequence from the per-position argmax onward: ids are mapped to
tokens, decoding stops at the first end-of-sequence token, the remaining
tokens are concatenated and the pad, start and end marker texts are removed
by successive str.replace calls.  The transformer forward pass and the
argmax produce the id list and are kept abstract. -/
def decode_sequence (v : Vocab) (output_tokens : List ℕ) : List Char :=
  let decoded_tokens := (output_tokens.map v.lookup_token).takeWhile (fun t => t ≠ eosTok)
  pyReplace eosTok [] (pyReplace sosTok [] (pyReplace padTok [] decoded_tokens.flatten))

/-! ## Reconstruction evaluator (src/unnamed/part_001) -/

/-- The running counters of evaluate_reconstruction. -/
structure EvalStats where
  correct_count : ℕ
  total_levenshtein_distance : ℕ
  total_mismatched_smiles_length : ℕ
  mismatched_count : ℕ
deriving DecidableEq

/-- One iteration of the evaluation loop: an exact reconstruction bumps the
correct counter; a mismatch bumps the mismatch counter and accumulates the
edit distance between the uppercased original and the decoded string,
together with the original length. -/
def eval_step (dec : List Char → List Char) (a : EvalStats) (smiles : List Char) : EvalStats :=
  if smiles = dec smiles then
    ⟨a.correct_count + 1, a.total_levenshtein_distance, a.total_mismatched_smiles_length,
      a.mismatched_count⟩
  else
    ⟨a.correct_count,
      a.total_levenshtein_distance + levenshtein (pyUpper smiles) (dec smiles),
      a.total_mismatched_smiles_length + smiles.length,
      a.mismatched_count + 1⟩

/-- evaluate_reconstruction, parameterized by the encode-forward-decode round
trip dec: returns reconstruction accuracy in percent, the mean edit distance
over mismatches, and the mean original length over mismatches, the latter two
zero when every string reconstructs exactly. -/
def evaluate_reconstruction (dec : List Char → List Char) (smiles_list : List (List Char)) :
    ℚ × ℚ × ℚ :=
  let a := smiles_list.foldl (eval_step dec) ⟨0, 0, 0, 0⟩
  let accuracy := (a.correct_count : ℚ) / (smiles_list.length : ℚ) * 100
  if 0 < a.mismatched_count then
    (accuracy, (a.total_levenshtein_distance : ℚ) / (a.mismatched_count : ℚ),
      (a.total_mismatched_smiles_length : ℚ) / (a.mismatched_count : ℚ))
  else
    (accuracy, 0, 0)

/-! ## Early-stopping training loop (src/STEP02_Transformer.ipynb) -/

/-- The early-stopping state of the training loop: best_val_loss (none is the
initial float infinity), patience_counter, and the epoch of the last saved
checkpoint. -/
structure ESState where
  best_val_loss : Option ℚ
  patience_counter : ℕ
  last_checkpoint : Option ℕ
deriving DecidableEq

/-- Initial early-stopping state: best loss infinity, counter zero, nothing
checkpointed. -/
def esInit : ESState := ⟨none, 0, none⟩

/-- The per-epoch early-stopping update: a validation loss strictly below
best_val_loss - min_delta records the new best, resets the counter and saves
a checkpoint; any other loss increments the counter. -/
def es_step (min_delta : ℚ) (epoch : ℕ) (s : ESState) (epoch_val_loss : ℚ) : ESState :=
  match s.best_val_loss with
  | none => ⟨some epoch_val_loss, 0, some epoch⟩
  | some best =>
    if epoch_val_loss < best - min_delta then ⟨some epoch_val_loss, 0, some epoch⟩
    else ⟨some best, s.patience_counter + 1, s.last_checkpoint⟩

/-- The training loop over a validation-loss sequence, starting at the given
epoch index: after each update the loop breaks as soon as the patience
counter reaches the patience threshold.  Returns the final state and the
epoch at which early stopping triggered, none when the epoch budget (the
length of the loss list) ran out first. -/
def es_run (patience : ℕ) (min_delta : ℚ) : ℕ → ESState → List ℚ → ESState × Option ℕ
  | _, s, [] => (s, none)
  | epoch, s, l :: ls =>
    if patience ≤ (es_step min_delta epoch s l).patience_counter then
      (es_step min_delta epoch s l, some epoch)
    else es_run patience min_delta (epoch + 1) (es_step min_delta epoch s l) ls

/-! ## Training criterion (src/unnamed/part_001) -/

/-- The criterion nn.CrossEntropyLoss with an ignore index, per the PyTorch
contract: the mean, over the positions whose target differs from the ignore
index, of the per-position negative log-softmax loss; ignored positions
contribute neither to the sum nor to the count.  The real-valued per-position
loss is kept abstract as nll. -/
def masked_cross_entropy (ignore_idx : ℕ) (nll : List ℚ → ℕ → ℚ)
    (batch : List (List ℚ × ℕ)) : ℚ :=
  let kept := batch.filter (fun p => p.2 ≠ ignore_idx)
  ((kept.map (fun p => nll p.1 p.2)).sum) / (kept.length : ℚ)

/-! ## SMILES pair encoding (invoked in src/unnamed/part_000) -/

/-- Modelled from the spec: the vocabulary builder learn_SPE lives in the
external SmilesPE package; only its invocation is in the sources.  First
step of the algorithm of section 4.1: each string becomes a sequence of
atomic symbols.  The corpus of the claims uses single-character atoms only,
so the multi-character atom-symbol proviso of the spec never fires here. -/
def atomic_symbols (s : String) : List String := s.data.map Char.toString

/-- Modelled from the spec: the adjacent symbol pairs of one corpus entry. -/
def adjacentPairs : List String → List (String × String)
  | a :: b :: rest => (a, b) :: adjacentPairs (b :: rest)
  | _ => []

/-- Modelled from the spec: all adjacent symbol-pair occurrences across the
whole corpus. -/
def corpusPairs (corpus : List (List String)) : List (String × String) :=
  (corpus.map adjacentPairs).flatten

/-- Modelled from the spec: the frequency of one adjacent pair across the
whole corpus. -/
def pairCount (corpus : List (List String)) (p : String × String) : ℕ :=
  ((corpusPairs corpus).filter (fun q => q = p)).length

/-- Modelled from the spec: record one pair occurrence in the transient
pair-frequency table, keeping first-occurrence order as a Python dict does. -/
def bump (acc : List ((String × String) × ℕ)) (p : String × String) :
    List ((String × String) × ℕ) :=
  if acc.any (fun q => q.1 = p) then
    acc.map (fun q => if q.1 = p then (q.1, q.2 + 1) else q)
  else acc ++ [(p, 1)]

/-- Modelled from the spec: the pair-frequency table of the corpus. -/
def pairStats (corpus : List (List String)) : List ((String × String) × ℕ) :=
  (corpusPairs corpus).foldl bump []

/-- Modelled from the spec: the pair with the highest frequency; on ties the
first-counted pair wins, as Python max over an insertion-ordered dict. -/
def bestPair (corpus : List (List String)) : Option ((String × String) × ℕ) :=
  (pairStats corpus).foldl
    (fun best q =>
      match best with
      | none => some q
      | some b => if b.2 < q.2 then some q else some b)
    none

/-- Modelled from the spec: merge every (non-overlapping, left-to-right)
occurrence of the selected pair in one corpus entry into a single token. -/
def mergePair (p : String × String) : List String → List String
  | a :: b :: rest =>
    if a = p.1 ∧ b = p.2 then (a ++ b) :: mergePair p rest
    else a :: mergePair p (b :: rest)
  | l => l

/-- Modelled from the spec: the merge loop.  Each round selects the most
frequent pair; it stops when no pair remains, when the best frequency is
below the threshold, or when the vocabulary budget (the fuel) is spent. -/
def spe_loop (min_frequency : ℕ) : ℕ → List (List String) → List String → List String
  | 0, _, vocab => vocab
  | fuel + 1, corpus, vocab =>
    match bestPair corpus with
    | none => vocab
    | some pc =>
      if pc.2 < min_frequency then vocab
      else spe_loop min_frequency fuel (corpus.map (mergePair pc.1)) (vocab ++ [pc.1.1 ++ pc.1.2])

/-- Modelled from the spec: learn_SPE of the SmilesPE package, absent from
the sources.  The augmentation step (random atom-order-equivalent rewrites)
is threaded as an explicit function per the design note of section 9; the
merged tokens are emitted in rank order. -/
def learn_SPE (augment : String → List String) (smiles_list : List String)
    (max_vocab_size min_frequency : ℕ) : List String :=
  let full := (smiles_list.map (fun s => s :: augment s)).flatten
  spe_loop min_frequency max_vocab_size (full.map atomic_symbols) []

/-- The identity augmentation (no randomized rewrites added). -/
def noAugment : String → List String := fun _ => []

/-- A small concrete vocabulary used to instantiate theorems: the four
specials in torchtext order followed by one chemical token. -/
def sampleVocab : Vocab := ⟨[padTok, unkTok, sosTok, eosTok, ['C']]⟩

/-- The improvement test of the early-stopping branch: the new validation
loss lies strictly below best_val_loss - min_delta (any loss improves on the
initial infinity). -/
def es_improves (min_delta : ℚ) (s : ESState) (epoch_val_loss : ℚ) : Prop :=
  match s.best_val_loss with
  | none => True
  | some best => epoch_val_loss < best - min_delta

/-- A pattern can match nowhere inside the block t, wherever the scan starts
in t and whatever text follows t. -/
def NoHit (pat t : List Char) : Prop :=
  ∀ i, i < t.length → ∀ s : List Char, pat.isPrefixOf ((t ++ s).drop i) = false

/-! ## Claims C6 and C2: padding -/

/-- Claim C6: for every sequence of length at most max_len, pad_sequence
returns a sequence of length exactly max_len whose first len(seq) elements
are seq unchanged and whose remaining elements all equal the pad id. -/
theorem pad_sequence_pads_spec (v : Vocab) (seq : List ℕ) (max_len : ℕ)
    (h : seq.length ≤ max_len) :
    (pad_sequence v seq max_len).length = max_len
    ∧ (pad_sequence v seq max_len).take seq.length = seq
    ∧ ∀ x ∈ (pad_sequence v seq max_len).drop seq.length, x = v.stoi padTok := by
  refine ⟨?_, ?_, ?_⟩
  · simp only [pad_sequence, List.length_append, List.length_replicate]
    omega
  · simp only [pad_sequence, List.take_left]
  · intro x hx
    simp only [pad_sequence, List.drop_left] at hx
    exact List.eq_of_mem_replicate hx

/-- Witness for claim C6 at a concrete sequence and width. -/
theorem pad_sequence_pads_spec_witness :
    (pad_sequence sampleVocab [5, 6] 4).length = 4
    ∧ (pad_sequence sampleVocab [5, 6] 4).take 2 = [5, 6]
    ∧ ∀ x ∈ (pad_sequence sampleVocab [5, 6] 4).drop 2, x = sampleVocab.stoi padTok :=
  pad_sequence_pads_spec sampleVocab [5, 6] 4 (by decide)

/-- Claim C2, counterexample: on a three-element sequence with max_len two,
pad_sequence does not fail with a length error; it silently returns the
input, a sequence strictly longer than max_len. -/
theorem pad_sequence_no_length_error_ce :
    pad_sequence sampleVocab [5, 6, 7] 2 = [5, 6, 7]
    ∧ 2 < (pad_sequence sampleVocab [5, 6, 7] 2).length := by decide

/-- Claim C2 (amended): for every input sequence longer than max_len,
pad_sequence raises no error: the Python list product with a negative count
is empty, so the call silently returns the input sequence unchanged, whose
length still exceeds max_len. -/
theorem pad_sequence_overlong_silent (v : Vocab) (seq : List ℕ) (max_len : ℕ)
    (h : max_len < seq.length) :
    pad_sequence v seq max_len = seq
    ∧ max_len < (pad_sequence v seq max_len).length := by
  have hz : max_len - seq.length = 0 := Nat.sub_eq_zero_of_le h.le
  refine ⟨?_, ?_⟩
  · simp [pad_sequence, hz]
  · simpa [pad_sequence, hz] using h

/-- Witness for the amended claim C2 at a concrete overlong sequence. -/
theorem pad_sequence_overlong_silent_witness :
    pad_sequence sampleVocab [5, 6, 7] 2 = [5, 6, 7]
    ∧ 2 < (pad_sequence sampleVocab [5, 6, 7] 2).length :=
  pad_sequence_overlong_silent sampleVocab [5, 6, 7] 2 (by decide)

/-! ## Claim C7: loss masking -/

/-- Claim C7: the criterion masks padding.  Appending positions whose target
equals the ignore index changes neither the summed per-position loss nor the
divisor, so a batch padded beyond position k produces the same loss whether
the padded length is k or k plus one hundred. -/
theorem masked_cross_entropy_ignores_pad (ignore_idx : ℕ) (nll : List ℚ → ℕ → ℚ)
    (batch extra : List (List ℚ × ℕ)) (hextra : ∀ p ∈ extra, p.2 = ignore_idx) :
    masked_cross_entropy ignore_idx nll (batch ++ extra)
      = masked_cross_entropy ignore_idx nll batch := by
  have hnil : extra.filter (fun p => p.2 ≠ ignore_idx) = [] := by
    rw [List.filter_eq_nil_iff]
    intro p hp
    simp [hextra p hp]
  simp only [masked_cross_entropy, List.filter_append, hnil, List.append_nil]

/-- Witness for claim C7: one real position and one padded position. -/
theorem masked_cross_entropy_ignores_pad_witness :
    masked_cross_entropy 0 (fun _ _ => 1) [([1], 2), ([1], 0)]
      = masked_cross_entropy 0 (fun _ _ => 1) [([1], 2)] :=
  masked_cross_entropy_ignores_pad 0 (fun _ _ => 1) [([1], 2)] [([1], 0)] (by simp)

/-! ## Claims C8 and C9: the vocabulary builder -/

/-- Claim C8, counterexample: on the corpus CCO, CCN, CCOCC the adjacent
pair (C, C) occurs four times (twice inside CCOCC), not three times as
claimed. -/
theorem learn_SPE_frequency_ce :
    pairCount (["CCO", "CCN", "CCOCC"].map atomic_symbols) ("C", "C") = 4
    ∧ pairCount (["CCO", "CCN", "CCOCC"].map atomic_symbols) ("C", "C") ≠ 3 := by decide

/-- Claim C8 (amended): on the corpus CCO, CCN, CCOCC with minimum frequency
two, the pair (C, C) has frequency four across the corpus, strictly above
every other pair, so it is merged first into the token CC and the resulting
vocabulary's first entry is CC. -/
theorem learn_SPE_scenario :
    pairCount (["CCO", "CCN", "CCOCC"].map atomic_symbols) ("C", "C") = 4
    ∧ (∀ q ∈ pairStats (["CCO", "CCN", "CCOCC"].map atomic_symbols),
        q.1 ≠ ("C", "C") → q.2 < 4)
    ∧ bestPair (["CCO", "CCN", "CCOCC"].map atomic_symbols) = some (("C", "C"), 4)
    ∧ (learn_SPE noAugment ["CCO", "CCN", "CCOCC"] 30000 2).head? = some "CC" := by decide

/-- Claim C9: vocabulary building is deterministic.  The builder is a pure
function of the corpus, the size and frequency bounds, and the (explicitly
seeded) augmentation, so equal inputs give identical ordered token lists. -/
theorem learn_SPE_deterministic (aug1 aug2 : String → List String)
    (c1 c2 : List String) (m1 m2 f1 f2 : ℕ)
    (ha : aug1 = aug2) (hc : c1 = c2) (hm : m1 = m2) (hf : f1 = f2) :
    learn_SPE aug1 c1 m1 f1 = learn_SPE aug2 c2 m2 f2 := by
  subst ha; subst hc; subst hm; subst hf; rfl

/-- Witness for claim C9 at the concrete scenario corpus. -/
theorem learn_SPE_deterministic_witness :
    learn_SPE noAugment ["CCO", "CCN", "CCOCC"] 30000 2
      = learn_SPE noAugment ["CCO", "CCN", "CCOCC"] 30000 2 :=
  learn_SPE_deterministic noAugment noAugment _ _ 30000 30000 2 2 rfl rfl rfl rfl

/-! ## Claim C1: early stopping -/

/-- A step whose improvement test succeeds records the new best, resets the
counter and checkpoints the current epoch. -/
theorem es_step_of_improves (min_delta : ℚ) (epoch : ℕ) (s : ESState) (l : ℚ)
    (h : es_improves min_delta s l) :
    es_step min_delta epoch s l = ⟨some l, 0, some epoch⟩ := by
  cases hs : s.best_val_loss with
  | none => simp [es_step, hs]
  | some best =>
    have h2 : l < best - min_delta := by
      rw [es_improves, hs] at h
      exact h
    simp only [es_step, hs]
    rw [if_pos h2]

/-- Running the loop over a concatenation: as long as the first part did not
trigger early stopping, the run continues into the second part from the
state and epoch index the first part reached. -/
theorem es_run_append (p : ℕ) (min_delta : ℚ) (xs : List ℚ) :
    ∀ (ys : List ℚ) (e : ℕ) (s s2 : ESState), es_run p min_delta e s xs = (s2, none) →
      es_run p min_delta e s (xs ++ ys)
        = es_run p min_delta (e + xs.length) s2 ys := by
  induction xs with
  | nil =>
    intro ys e s s2 h
    simp only [es_run] at h
    injection h with h1 h2
    subst h1
    simp
  | cons l ls ih =>
    intro ys e s s2 h
    simp only [es_run] at h
    simp only [List.cons_append, es_run]
    by_cases hc : p ≤ (es_step min_delta e s l).patience_counter
    · rw [if_pos hc] at h
      exact absurd (congrArg Prod.snd h) (by simp)
    · rw [if_neg hc] at h
      rw [if_neg hc]
      rw [List.append_eq]
      rw [ih ys (e + 1) _ s2 h]
      have harith : e + (l :: ls).length = e + 1 + ls.length := by
        simp only [List.length_cons]
        omega
      rw [harith]

/-- A stall: starting from a recorded best b with counter c, if the next k
losses all fail the improvement test and c + k reaches the patience
threshold, the run stops after exactly those k epochs with the counter at
the threshold and the checkpoint untouched. -/
theorem es_run_stall (p : ℕ) (min_delta b : ℚ) (ckpt : Option ℕ) :
    ∀ (k c e : ℕ) (ls : List ℚ), c + k = p → 1 ≤ k → k ≤ ls.length →
      (∀ j, j < k → b - min_delta ≤ ls.getD j 0) →
      es_run p min_delta e ⟨some b, c, ckpt⟩ ls
        = (⟨some b, p, ckpt⟩, some (e + k - 1)) := by
  intro k
  induction k with
  | zero => intro c e ls _ h2 _ _; omega
  | succ k ih =>
    intro c e ls hck _ hlen hj
    cases ls with
    | nil => simp at hlen
    | cons l ls2 =>
      have hni : ¬ (l < b - min_delta) := by
        have := hj 0 (by omega)
        simp only [List.getD_cons_zero] at this
        exact not_lt.mpr this
      have hstep : es_step min_delta e ⟨some b, c, ckpt⟩ l
          = ⟨some b, c + 1, ckpt⟩ := by
        simp [es_step, hni]
      rw [es_run, hstep]
      rcases Nat.eq_zero_or_pos k with hk0 | hkpos
      · subst hk0
        have hcp : c + 1 = p := by omega
        rw [if_pos (by simp [hcp])]
        simp [hcp]
      · have hlt : ¬ (p ≤ c + 1) := by omega
        rw [if_neg (by simpa using hlt)]
        have hj2 : ∀ j, j < k → b - min_delta ≤ ls2.getD j 0 := by
          intro j hjk
          have := hj (j + 1) (by omega)
          simpa using this
        rw [ih (c + 1) (e + 1) ls2 (by omega) hkpos (by simpa using hlen) hj2]
        congr 2
        omega

/-- Elements of a dropped list, read through getD. -/
theorem getD_drop_q (L : List ℚ) (n j : ℕ) :
    (L.drop n).getD j 0 = L.getD (n + j) 0 := by
  simp [List.getD_eq_getElem?_getD, List.getElem?_drop]

/-- Claim C1 (amended): with patience p of at least one and an epoch budget
that extends past f + p, if the run reaches epoch f without stopping, the
loss of epoch f passes the improvement test (improves on the best seen by
strictly more than min_delta), and no later loss lies below that loss minus
min_delta, then training terminates exactly at epoch f + p with the counter
at the threshold, the best at the epoch-f loss, and the last checkpoint
saved at epoch f. -/
theorem early_stopping_exact_termination (p : ℕ) (min_delta : ℚ) (L : List ℚ)
    (f : ℕ) (s : ESState)
    (hp : 1 ≤ p) (hlen : f + p < L.length)
    (hpre : es_run p min_delta 0 esInit (L.take f) = (s, none))
    (himp : es_improves min_delta s (L.getD f 0))
    (hafter : ∀ e, e < L.length → f < e → L.getD f 0 - min_delta ≤ L.getD e 0) :
    es_run p min_delta 0 esInit L
      = (⟨some (L.getD f 0), p, some f⟩, some (f + p)) := by
  have hfL : f < L.length := by omega
  have htlen : (L.take f).length = f := by
    rw [List.length_take]; omega
  conv_lhs => rw [← List.take_append_drop f L]
  rw [es_run_append p min_delta (L.take f) (L.drop f) 0 esInit s hpre]
  rw [htlen, Nat.zero_add]
  have hdrop : L.drop f = L.getD f 0 :: L.drop (f + 1) := by
    rw [List.drop_eq_getElem_cons hfL]
    congr 1
    exact (List.getD_eq_getElem L 0 hfL).symm
  rw [hdrop]
  simp only [es_run]
  rw [es_step_of_improves min_delta f s (L.getD f 0) himp]
  have hc0 : ¬ p ≤ (ESState.mk (some (L.getD f 0)) 0 (some f)).patience_counter := by
    show ¬ p ≤ 0
    omega
  rw [if_neg hc0]
  have hstall := es_run_stall p min_delta (L.getD f 0) (some f) p 0 (f + 1)
    (L.drop (f + 1)) (by omega) hp
    (by rw [List.length_drop]; omega)
    (by
      intro j hj
      rw [getD_drop_q]
      exact hafter (f + 1 + j) (by omega) (by omega))
  rw [hstall]
  have harith : f + 1 + p - 1 = f + p := by omega
  rw [harith]

/-- Witness for the amended claim C1: patience two, min_delta one, losses
ten then three fives; the last improvement is at epoch one and the run
stops at epoch three with the checkpoint from epoch one. -/
theorem early_stopping_exact_termination_witness :
    es_run 2 1 0 esInit [10, 5, 5, 5] = (⟨some 5, 2, some 1⟩, some 3) := by
  have h := early_stopping_exact_termination 2 1 [10, 5, 5, 5] 1 ⟨some 10, 0, some 0⟩
    (by norm_num) (by norm_num)
    (by norm_num [es_run, es_step, esInit])
    (by norm_num [es_improves])
    (by
      intro e h1 h2
      have h4 : e < 4 := by simpa using h1
      interval_cases e <;> norm_num [List.getD])
  simpa using h

/-- Claim C1, counterexample: with min_delta one and validation losses ten
then nine, epoch one improves on the best seen (ten) by exactly min_delta,
yet the strict test of the code counts it as a failure: the counter is
incremented to one, the best stays ten, and no checkpoint is saved at epoch
one — refuting the claim that an improvement of at least min_delta resets
the counter, records the new best and saves a checkpoint. -/
theorem early_stopping_at_least_delta_ce :
    (1 : ℚ) ≤ 10 - 9
    ∧ es_run 5 1 0 esInit [10, 9] = (⟨some 10, 1, some 0⟩, none) := by
  norm_num [es_run, es_step, esInit]

/-! ## Claim C3: the reconstruction evaluator -/

/-- Closed form of the evaluation fold: the counters of
evaluate_reconstruction are the match count, the summed edit distance and
original length over the mismatches, and the mismatch count. -/
theorem eval_foldl (dec : List Char → List Char) (l : List (List Char)) :
    ∀ a : EvalStats, l.foldl (eval_step dec) a =
      ⟨a.correct_count + (l.filter (fun s => s = dec s)).length,
        a.total_levenshtein_distance +
          ((l.filter (fun s => ¬ (s = dec s))).map
            (fun s => levenshtein (pyUpper s) (dec s))).sum,
        a.total_mismatched_smiles_length +
          ((l.filter (fun s => ¬ (s = dec s))).map List.length).sum,
        a.mismatched_count + (l.filter (fun s => ¬ (s = dec s))).length⟩ := by
  induction l with
  | nil => intro a; simp
  | cons s ls ih =>
    intro a
    rw [List.foldl_cons, ih]
    by_cases h : s = dec s
    · rw [show eval_step dec a s
          = ⟨a.correct_count + 1, a.total_levenshtein_distance,
              a.total_mismatched_smiles_length, a.mismatched_count⟩ from by
        simp only [eval_step]
        rw [if_pos h]]
      rw [List.filter_cons_of_pos (by simpa using h),
        List.filter_cons_of_neg (by simpa using h)]
      simp only [EvalStats.mk.injEq, List.length_cons]
      refine ⟨?_, ?_, ?_, ?_⟩ <;> first | trivial | omega
    · rw [show eval_step dec a s
          = ⟨a.correct_count,
              a.total_levenshtein_distance + levenshtein (pyUpper s) (dec s),
              a.total_mismatched_smiles_length + s.length,
              a.mismatched_count + 1⟩ from by
        simp only [eval_step]
        rw [if_neg h]]
      rw [List.filter_cons_of_neg (by simpa using h),
        List.filter_cons_of_pos (by simpa using h)]
      simp only [EvalStats.mk.injEq, List.length_cons, List.map_cons, List.sum_cons]
      refine ⟨?_, ?_, ?_, ?_⟩ <;> first | trivial | omega

/-- Claim C3: on a non-empty list on which every string reconstructs
exactly, evaluate_reconstruction returns accuracy one hundred, mean edit
distance zero and mean mismatched length zero with no division by zero; in
general the accuracy is the exact-match count over the list length times one
hundred, and when mismatches exist the two distance statistics are the
corresponding sums divided by the mismatch count only. -/
theorem evaluate_reconstruction_spec (dec : List Char → List Char)
    (l : List (List Char)) (hne : l ≠ []) (hall : ∀ s ∈ l, dec s = s) :
    evaluate_reconstruction dec l = (100, 0, 0)
    ∧ (∀ d2 l2, (evaluate_reconstruction d2 l2).1
        = ((l2.filter (fun s => s = d2 s)).length : ℚ) / (l2.length : ℚ) * 100)
    ∧ (∀ d2 l2, (l2.filter (fun s => ¬ (s = d2 s))).length ≠ 0 →
        (evaluate_reconstruction d2 l2).2.1
          = (((l2.filter (fun s => ¬ (s = d2 s))).map
              (fun s => levenshtein (pyUpper s) (d2 s))).sum : ℚ)
            / ((l2.filter (fun s => ¬ (s = d2 s))).length : ℚ)
        ∧ (evaluate_reconstruction d2 l2).2.2
          = (((l2.filter (fun s => ¬ (s = d2 s))).map List.length).sum : ℚ)
            / ((l2.filter (fun s => ¬ (s = d2 s))).length : ℚ)) := by
  refine ⟨?_, ?_, ?_⟩
  · have hfa : l.filter (fun s => s = dec s) = l := by
      rw [List.filter_eq_self]
      intro s hs
      simp [hall s hs]
    have hfn : l.filter (fun s => ¬ (s = dec s)) = [] := by
      rw [List.filter_eq_nil_iff]
      intro s hs
      simp [hall s hs]
    have hlen : (l.length : ℚ) ≠ 0 := by
      simpa using hne
    simp only [evaluate_reconstruction, eval_foldl, hfa, hfn]
    simp [div_self hlen]
  · intro d2 l2
    simp only [evaluate_reconstruction, eval_foldl, Nat.zero_add]
    by_cases h : 0 < (l2.filter (fun s => ¬ (s = d2 s))).length
    · rw [if_pos h]
    · rw [if_neg h]
  · intro d2 l2 hm
    simp only [evaluate_reconstruction, eval_foldl, Nat.zero_add]
    rw [if_pos (Nat.pos_of_ne_zero hm)]
    exact ⟨rfl, rfl⟩

/-- Witness for claim C3: the identity round trip on a one-string list. -/
theorem evaluate_reconstruction_spec_witness :
    evaluate_reconstruction (fun s => s) [['C', 'C', 'O']] = (100, 0, 0) :=
  (evaluate_reconstruction_spec (fun s => s) [['C', 'C', 'O']] (by simp)
    (fun _ _ => rfl)).1

/-! ## Claim C4: encoding -/

/-- A token absent from the ordered token list gets the default index, the
reserved unknown id. -/
theorem stoi_of_not_mem (v : Vocab) (t : List Char) (h : t ∉ v.itos) :
    v.stoi t = v.unkId := by
  have hnone : v.itos.findIdx? (fun u => u = t) = none := by
    rw [List.findIdx?_eq_none_iff]
    intro x hx
    simp only [decide_eq_false_iff_not]
    rintro rfl
    exact h hx
  simp [Vocab.stoi, hnone]

/-- Claim C4: encode_smiles_to_indices returns a sequence of length equal to
the token count plus two, whose head is the start-marker id, whose last
element is the end-marker id, whose middle elements are in order the
vocabulary ids of the tokens of the tokenized string, and every token absent
from the vocabulary is mapped to the reserved unknown id. -/
theorem encode_smiles_to_indices_spec (ct : List (List Char)) (v : Vocab)
    (s : List Char) :
    (encode_smiles_to_indices ct v s).length = (custom_tokenizer ct s).length + 2
    ∧ (encode_smiles_to_indices ct v s).head? = some (v.stoi sosTok)
    ∧ (encode_smiles_to_indices ct v s).getLast? = some (v.stoi eosTok)
    ∧ (∀ i, i < (custom_tokenizer ct s).length →
        (encode_smiles_to_indices ct v s)[i + 1]?
          = ((custom_tokenizer ct s)[i]?).map v.stoi)
    ∧ (∀ t, t ∉ v.itos → v.stoi t = v.unkId) := by
  refine ⟨?_, ?_, ?_, ?_, fun t ht => stoi_of_not_mem v t ht⟩
  · simp only [encode_smiles_to_indices, List.length_append, List.length_map,
      List.length_singleton]
    omega
  · simp [encode_smiles_to_indices]
  · rw [encode_smiles_to_indices]
    exact List.getLast?_concat _
  · intro i hi
    simp only [encode_smiles_to_indices, List.singleton_append, List.cons_append,
      List.getElem?_cons_succ]
    rw [List.getElem?_append_left (by simpa using hi)]
    exact List.getElem?_map ..

/-- Witness for claim C4: the concrete encoding of CCO with one custom
token CC over the sample vocabulary, where both CC and O fall outside the
vocabulary and map to the unknown id one, between start id two and end id
three. -/
theorem encode_smiles_to_indices_spec_witness :
    encode_smiles_to_indices [['C', 'C']] sampleVocab ("CCO".data) = [2, 1, 1, 3]
    ∧ (encode_smiles_to_indices [['C', 'C']] sampleVocab ("CCO".data))[1]?
        = ((custom_tokenizer [['C', 'C']] ("CCO".data))[0]?).map sampleVocab.stoi := by
  have h := (encode_smiles_to_indices_spec [['C', 'C']] sampleVocab
    ("CCO".data)).2.2.2.1 0 (by decide)
  exact ⟨by decide, h⟩

/-! ## Claim C10: tokenization loses no characters -/

/-- A positive skip walks over exactly that many characters. -/
theorem pyReplaceAux_skip (pat rep : List Char) :
    ∀ q u : List Char, pyReplaceAux pat rep (q ++ u) q.length = pyReplaceAux pat rep u 0 := by
  intro q
  induction q with
  | nil => intro u; rfl
  | cons a q2 ih =>
    intro u
    simp only [List.cons_append, List.length_cons]
    rw [show pyReplaceAux pat rep (a :: (q2 ++ u)) (q2.length + 1)
        = pyReplaceAux pat rep (q2 ++ u) q2.length from rfl]
    exact ih u

/-- The scan at an occurrence of a non-empty pattern emits the replacement
and resumes right after the occurrence. -/
theorem pyReplaceAux_hit (c0 : Char) (q rep u : List Char) :
    pyReplaceAux (c0 :: q) rep ((c0 :: q) ++ u) 0
      = rep ++ pyReplaceAux (c0 :: q) rep u 0 := by
  have hpre : (c0 :: q).isPrefixOf (c0 :: (q ++ u)) = true := by
    rw [List.isPrefixOf_iff_prefix]
    exact List.prefix_append _ _
  rw [List.cons_append]
  rw [show pyReplaceAux (c0 :: q) rep (c0 :: (q ++ u)) 0
      = if (c0 :: q).isPrefixOf (c0 :: (q ++ u)) then
          rep ++ pyReplaceAux (c0 :: q) rep (q ++ u) ((c0 :: q).length - 1)
        else c0 :: pyReplaceAux (c0 :: q) rep (q ++ u) 0 from rfl]
  rw [if_pos hpre]
  have hq : (c0 :: q).length - 1 = q.length := by simp
  rw [hq, pyReplaceAux_skip]

/-- The scan at a non-occurrence keeps the head character. -/
theorem pyReplaceAux_miss (pat rep : List Char) (c : Char) (u : List Char)
    (h : pat.isPrefixOf (c :: u) = false) :
    pyReplaceAux pat rep (c :: u) 0 = c :: pyReplaceAux pat rep u 0 := by
  rw [show pyReplaceAux pat rep (c :: u) 0
      = if pat.isPrefixOf (c :: u) then rep ++ pyReplaceAux pat rep u (pat.length - 1)
        else c :: pyReplaceAux pat rep u 0 from rfl]
  rw [h]
  simp

/-- The chunks produced by the split worker concatenate to the accumulated
prefix plus the non-whitespace characters of the rest. -/
theorem pySplitAux_flatten (s : List Char) :
    ∀ acc, (pySplitAux s acc).flatten
      = acc.reverse ++ s.filter (fun c => ¬ c.isWhitespace) := by
  induction s with
  | nil =>
    intro acc
    by_cases h : acc = [] <;> simp [pySplitAux, h]
  | cons c rest ih =>
    intro acc
    by_cases hw : c.isWhitespace
    · by_cases ha : acc = []
      · simp [pySplitAux, hw, ha, ih, List.filter_cons]
      · simp [pySplitAux, hw, ha, ih, List.filter_cons]
    · simp [pySplitAux, hw, ih, List.filter_cons]

/-- Python split() concatenates back to the string with its whitespace
removed. -/
theorem flatten_pySplit (s : List Char) :
    (pySplit s).flatten = s.filter (fun c => ¬ c.isWhitespace) := by
  rw [pySplit]
  simpa using pySplitAux_flatten s []

/-- Replacing every occurrence of a non-empty token by the token surrounded
by spaces preserves the non-whitespace characters; stated with an explicit
length bound for the induction. -/
theorem filter_pyReplaceAux_sep_fuel (c0 : Char) (q : List Char) :
    ∀ (n : ℕ) (s : List Char), s.length ≤ n →
      (pyReplaceAux (c0 :: q) (' ' :: ((c0 :: q) ++ [' '])) s 0).filter
          (fun c => ¬ c.isWhitespace)
        = s.filter (fun c => ¬ c.isWhitespace) := by
  intro n
  induction n with
  | zero =>
    intro s hs
    have hnil : s = [] := List.length_eq_zero.mp (Nat.le_zero.mp hs)
    subst hnil
    rfl
  | succ n ih =>
    intro s hs
    by_cases hp : (c0 :: q) <+: s
    · obtain ⟨t, hts⟩ := hp
      rw [← hts]
      rw [pyReplaceAux_hit]
      rw [List.filter_append, List.filter_append]
      have hrep : (' ' :: ((c0 :: q) ++ [' '])).filter (fun c => ¬ c.isWhitespace)
          = (c0 :: q).filter (fun c => ¬ c.isWhitespace) := by
        rw [List.filter_cons_of_neg (by decide), List.filter_append]
        rw [show ([' '] : List Char).filter (fun c => ¬ c.isWhitespace) = [] from by decide]
        rw [List.append_nil]
      rw [hrep]
      rw [ih t (by
        have hlen := congrArg List.length hts
        simp only [List.length_append, List.length_cons] at hlen
        omega)]
    · cases s with
      | nil => rfl
      | cons c u =>
        have hb : (c0 :: q).isPrefixOf (c :: u) = false := by
          rw [← Bool.not_eq_true, List.isPrefixOf_iff_prefix]
          exact hp
        rw [pyReplaceAux_miss _ _ _ _ hb]
        rw [List.filter_cons, List.filter_cons]
        rw [ih u (by simp only [List.length_cons] at hs; omega)]

/-- The length-free form of the preceding lemma. -/
theorem filter_pyReplaceAux_sep (c0 : Char) (q s : List Char) :
    (pyReplaceAux (c0 :: q) (' ' :: ((c0 :: q) ++ [' '])) s 0).filter
        (fun c => ¬ c.isWhitespace)
      = s.filter (fun c => ¬ c.isWhitespace) :=
  filter_pyReplaceAux_sep_fuel c0 q s.length s le_rfl

/-- The empty-pattern replacement of Python inserts only spaces, so it also
preserves the non-whitespace characters. -/
theorem filter_flatten_sep (s : List Char) :
    ((s.map (fun c => c :: [' ', ' '])).flatten).filter (fun c => ¬ c.isWhitespace)
      = s.filter (fun c => ¬ c.isWhitespace) := by
  induction s with
  | nil => rfl
  | cons c u ih =>
    have h3 : ∀ x : Char, ([x, ' ', ' '] : List Char).filter (fun c => ¬ c.isWhitespace)
        = [x].filter (fun c => ¬ c.isWhitespace) := by
      intro x
      by_cases hw : x.isWhitespace
      · simp [List.filter_cons, hw]
      · simp [List.filter_cons, hw]
    rw [List.map_cons, List.flatten_cons, List.filter_append, ih, h3]
    by_cases hw : c.isWhitespace
    · simp [List.filter_cons, hw]
    · simp [List.filter_cons, hw]

/-- One pass of the tokenizer loop preserves the non-whitespace characters:
the replacement only inserts separator spaces around occurrences. -/
theorem filter_pyReplace_sep (tok s : List Char) :
    (pyReplace tok (' ' :: (tok ++ [' '])) s).filter (fun c => ¬ c.isWhitespace)
      = s.filter (fun c => ¬ c.isWhitespace) := by
  cases tok with
  | nil =>
    rw [pyReplace, if_pos rfl]
    simp only [List.nil_append]
    rw [List.filter_append]
    rw [show ([' ', ' '] : List Char).filter (fun c => ¬ c.isWhitespace) = [] from by decide]
    rw [List.nil_append]
    exact filter_flatten_sep s
  | cons c0 q =>
    rw [pyReplace, if_neg (by simp)]
    exact filter_pyReplaceAux_sep c0 q s

/-- The whole replacement loop of custom_tokenizer preserves the
non-whitespace characters of the string. -/
theorem filter_tokenize_foldl (toks : List (List Char)) :
    ∀ s, ((toks.foldl
        (fun cur token =>
          if pyContains token cur then pyReplace token (' ' :: (token ++ [' '])) cur else cur)
        s).filter (fun c => ¬ c.isWhitespace))
      = s.filter (fun c => ¬ c.isWhitespace) := by
  induction toks with
  | nil => intro s; rfl
  | cons t ts ih =>
    intro s
    rw [List.foldl_cons, ih]
    by_cases h : pyContains t s = true
    · rw [if_pos h]
      exact filter_pyReplace_sep t s
    · rw [if_neg h]

/-- Claim C10: tokenization loses no characters.  For every string without
whitespace and every custom-token list without whitespace, the tokens
returned by custom_tokenizer concatenate back to exactly the original
string, however the iterative replacements interleave. -/
theorem custom_tokenizer_lossless (toks : List (List Char)) (s : List Char)
    (hs : ∀ c ∈ s, ¬ c.isWhitespace)
    (_ht : ∀ t ∈ toks, ∀ c ∈ t, ¬ c.isWhitespace) :
    (custom_tokenizer toks s).flatten = s := by
  unfold custom_tokenizer
  rw [flatten_pySplit, filter_tokenize_foldl]
  rw [List.filter_eq_self]
  intro c hc
  simpa using hs c hc

/-- Witness for claim C10: the token CC on the string CCO. -/
theorem custom_tokenizer_lossless_witness :
    (custom_tokenizer [['C', 'C']] ("CCO".data)).flatten = "CCO".data :=
  custom_tokenizer_lossless [['C', 'C']] ("CCO".data) (by decide) (by decide)

/-! ## Claim C5: decoding strips special tokens -/

/-- A successful prefix test pins down the head character. -/
theorem isPrefixOf_head (c0 : Char) (q l : List Char)
    (h : (c0 :: q).isPrefixOf l = true) : l.head? = some c0 := by
  cases l with
  | nil => simp [List.isPrefixOf] at h
  | cons d t =>
    simp only [List.isPrefixOf, Bool.and_eq_true, beq_iff_eq] at h
    simp [h.1]

/-- A string whose head differs from the pattern head fails the prefix
test. -/
theorem isPrefixOf_false_of_head (c0 : Char) (q l : List Char)
    (h : l.head? ≠ some c0) : (c0 :: q).isPrefixOf l = false := by
  cases hb : (c0 :: q).isPrefixOf l
  · rfl
  · exact absurd (isPrefixOf_head c0 q l hb) h

/-- The head of a dropped list is the element at the dropped position. -/
theorem head?_drop (l : List Char) (i : ℕ) : (l.drop i).head? = l[i]? := by
  rw [List.head?_eq_getElem?, List.getElem?_drop]
  simp

/-- A block without the character opening the pattern admits no match
anywhere inside it. -/
theorem noHit_of_clean (c0 : Char) (q t : List Char) (hcl : ∀ c ∈ t, c ≠ '<')
    (hc0 : c0 = '<') : NoHit (c0 :: q) t := by
  intro i hi s
  apply isPrefixOf_false_of_head
  rw [head?_drop, List.getElem?_append_left hi, List.getElem?_eq_getElem hi]
  intro hEq
  exact hcl _ (List.getElem_mem hi) ((Option.some.inj hEq).trans hc0)

/-- A special token block distinct from the pattern admits no match
anywhere inside it, since it opens with the pattern character, has the
pattern's length, and continues without that character. -/
theorem noHit_of_special (c0 : Char) (q t : List Char)
    (hlen : t.length = (c0 :: q).length) (hne : t ≠ c0 :: q)
    (htail : ∀ c ∈ t.drop 1, c ≠ '<') (hc0 : c0 = '<') :
    NoHit (c0 :: q) t := by
  intro i hi s
  rcases Nat.eq_zero_or_pos i with rfl | hpos
  · rw [List.drop_zero]
    cases hb : (c0 :: q).isPrefixOf (t ++ s)
    · rfl
    · exfalso
      have hpre : (c0 :: q) <+: t ++ s := List.isPrefixOf_iff_prefix.mp hb
      have heq : c0 :: q = (t ++ s).take (c0 :: q).length :=
        List.prefix_iff_eq_take.mp hpre
      rw [← hlen, List.take_left] at heq
      exact hne heq.symm
  · apply isPrefixOf_false_of_head
    rw [head?_drop, List.getElem?_append_left hi, List.getElem?_eq_getElem hi]
    intro hEq
    have hmem : t[i] ∈ t.drop 1 := by
      have hgd : (t.drop 1)[i - 1]? = some t[i] := by
        rw [List.getElem?_drop, show 1 + (i - 1) = i from by omega]
        exact List.getElem?_eq_getElem hi
      exact List.getElem?_mem hgd
    exact htail _ hmem ((Option.some.inj hEq).trans hc0)

/-- A block with no internal match is distinct from the pattern. -/
theorem noHit_ne (c0 : Char) (q t : List Char) (h : NoHit (c0 :: q) t) :
    t ≠ c0 :: q := by
  rintro rfl
  have h1 := h 0 (by simp) []
  rw [List.drop_zero] at h1
  have h2 : (c0 :: q).isPrefixOf ((c0 :: q) ++ []) = true := by
    rw [List.isPrefixOf_iff_prefix]
    exact List.prefix_append _ _
  rw [h2] at h1
  exact absurd h1 (by simp)

/-- Replacement at the pattern level: a leading occurrence of a non-empty
pattern is replaced and the scan resumes after it. -/
theorem pyReplace_hit (c0 : Char) (q rep u : List Char) :
    pyReplace (c0 :: q) rep ((c0 :: q) ++ u) = rep ++ pyReplace (c0 :: q) rep u := by
  have hnnil : ¬ (c0 :: q) = ([] : List Char) := by simp
  simp only [pyReplace, if_neg hnnil]
  exact pyReplaceAux_hit c0 q rep u

/-- Replacement walks through a block with no internal match unchanged. -/
theorem pyReplace_block (c0 : Char) (q rep : List Char) :
    ∀ t : List Char, NoHit (c0 :: q) t →
      ∀ s, pyReplace (c0 :: q) rep (t ++ s) = t ++ pyReplace (c0 :: q) rep s := by
  intro t
  induction t with
  | nil => intro _ s; simp
  | cons c t2 ih =>
    intro h s
    have h0 : (c0 :: q).isPrefixOf (c :: (t2 ++ s)) = false := by
      have := h 0 (by simp) s
      simpa using this
    have h2 : NoHit (c0 :: q) t2 := by
      intro i hi s2
      have := h (i + 1) (by simp only [List.length_cons]; omega) s2
      simpa using this
    have hnnil : ¬ (c0 :: q) = ([] : List Char) := by simp
    have hrec := ih h2 s
    simp only [pyReplace, if_neg hnnil] at hrec ⊢
    rw [List.cons_append, pyReplaceAux_miss _ _ _ _ h0, hrec, List.cons_append]

/-- Stripping a non-empty pattern from a concatenation of blocks that are
each either the pattern itself or free of internal matches removes exactly
the pattern blocks. -/
theorem pyReplace_strip_flatten (c0 : Char) (q : List Char) (toks : List (List Char))
    (h : ∀ t ∈ toks, t = c0 :: q ∨ NoHit (c0 :: q) t) :
    pyReplace (c0 :: q) [] toks.flatten
      = (toks.filter (fun t => t ≠ c0 :: q)).flatten := by
  induction toks with
  | nil =>
    simp [pyReplace, pyReplaceAux]
  | cons t ts ih =>
    have hts := fun t2 ht2 => h t2 (List.mem_cons_of_mem _ ht2)
    rcases h t (List.mem_cons_self _ _) with rfl | hnh
    · rw [List.flatten_cons, pyReplace_hit, List.nil_append, ih hts]
      rw [List.filter_cons_of_neg (by simp)]
    · have hne : t ≠ c0 :: q := noHit_ne c0 q t hnh
      rw [List.flatten_cons, pyReplace_block c0 q [] t hnh ts.flatten, ih hts]
      rw [List.filter_cons_of_pos (by simpa using hne), List.flatten_cons]

/-- A concatenation of blocks each free of internal matches contains no
match of the pattern at any position. -/
theorem noHit_flatten (c0 : Char) (q : List Char) (toks : List (List Char))
    (h : ∀ t ∈ toks, NoHit (c0 :: q) t) :
    ∀ i, (c0 :: q).isPrefixOf (toks.flatten.drop i) = false := by
  induction toks with
  | nil =>
    intro i
    rw [List.flatten_nil, List.drop_nil]
    rfl
  | cons t ts ih =>
    intro i
    have hts := fun t2 ht2 => h t2 (List.mem_cons_of_mem _ ht2)
    rw [List.flatten_cons]
    rcases Nat.lt_or_ge i t.length with hi | hi
    · exact h t (List.mem_cons_self _ _) i hi ts.flatten
    · obtain ⟨j, rfl⟩ : ∃ j, i = t.length + j := ⟨i - t.length, by omega⟩
      rw [show (t ++ ts.flatten).drop (t.length + j) = ts.flatten.drop j from by
        rw [List.drop_append_eq_append_drop]
        simp]
      exact ih hts j

/-- A string with no match of the pattern at any position contains no
occurrence of the pattern. -/
theorem no_occurrence_of_noHit (c0 : Char) (q l : List Char)
    (h : ∀ i, (c0 :: q).isPrefixOf (l.drop i) = false) :
    ∀ pre post, l ≠ pre ++ (c0 :: q) ++ post := by
  intro pre post heq
  have h2 := h pre.length
  rw [heq, List.append_assoc, List.drop_left] at h2
  have h3 : (c0 :: q).isPrefixOf ((c0 :: q) ++ post) = true := by
    rw [List.isPrefixOf_iff_prefix]
    exact List.prefix_append _ _
  rw [h3] at h2
  exact absurd h2 (by simp)

/-- Id-to-token lookup lands in the token list, or on the empty default for
an out-of-range id. -/
theorem lookup_token_cases (v : Vocab) (i : ℕ) :
    v.lookup_token i ∈ v.itos ∨ v.lookup_token i = [] := by
  by_cases h : i < v.itos.length
  · left
    rw [Vocab.lookup_token, List.getD_eq_getElem _ _ h]
    exact List.getElem_mem h
  · right
    rw [Vocab.lookup_token]
    exact List.getD_eq_default _ _ (by omega)

/-- One stripping pass over a flattened token sequence whose members are the
specials or bracket-free removes exactly the blocks equal to the five-long
special being stripped. -/
theorem strip_step (pat : List Char) (c0 : Char) (qq : List Char)
    (hpat : pat = c0 :: qq) (hc0 : c0 = '<') (hlen5 : pat.length = 5)
    (T : List (List Char))
    (hmem : ∀ t ∈ T, t = padTok ∨ t = unkTok ∨ t = sosTok ∨ ∀ c ∈ t, c ≠ '<') :
    pyReplace pat [] T.flatten = (T.filter (fun t => t ≠ pat)).flatten := by
  subst hpat
  apply pyReplace_strip_flatten
  intro t htm
  by_cases heq : t = c0 :: qq
  · exact Or.inl heq
  · right
    rcases hmem t htm with rfl | rfl | rfl | hcl
    · exact noHit_of_special c0 qq padTok (by rw [hlen5]; decide) heq (by decide) hc0
    · exact noHit_of_special c0 qq unkTok (by rw [hlen5]; decide) heq (by decide) hc0
    · exact noHit_of_special c0 qq sosTok (by rw [hlen5]; decide) heq (by decide) hc0
    · exact noHit_of_clean c0 qq t hcl hc0

/-- After all stripping passes the remaining blocks are the unknown special
or bracket-free, and none equals the pattern, so the pattern occurs nowhere
in the result. -/
theorem no_occ_step (pat : List Char) (c0 : Char) (qq : List Char)
    (hpat : pat = c0 :: qq) (hc0 : c0 = '<') (hlen5 : pat.length = 5)
    (T : List (List Char))
    (hmem : ∀ t ∈ T, t = unkTok ∨ ∀ c ∈ t, c ≠ '<')
    (hno : ∀ t ∈ T, t ≠ pat) :
    ∀ pre post, T.flatten ≠ pre ++ pat ++ post := by
  subst hpat
  apply no_occurrence_of_noHit
  apply noHit_flatten
  intro t htm
  rcases hmem t htm with rfl | hcl
  · exact noHit_of_special c0 qq unkTok (by rw [hlen5]; decide) (hno _ htm) (by decide) hc0
  · exact noHit_of_clean c0 qq t hcl hc0

/-- Claim C5 (amended): for a vocabulary whose tokens are the four specials
or contain no opening angle bracket — as the SMILES vocabulary does —
decoding stops at the first end-of-sequence token, concatenates, and the
successive replacements leave no pad, start-of-sequence or end-of-sequence
text anywhere in the output.  The unknown-token text is not stripped by the
code and can remain (see the counterexample). -/
theorem decode_sequence_strips_pad_sos_eos (v : Vocab)
    (hv : ∀ t ∈ v.itos,
      t = padTok ∨ t = unkTok ∨ t = sosTok ∨ t = eosTok ∨ ∀ c ∈ t, c ≠ '<')
    (ids : List ℕ) :
    (∀ pre post, decode_sequence v ids ≠ pre ++ padTok ++ post)
    ∧ (∀ pre post, decode_sequence v ids ≠ pre ++ sosTok ++ post)
    ∧ (∀ pre post, decode_sequence v ids ≠ pre ++ eosTok ++ post) := by
  have hdec : decode_sequence v ids
      = pyReplace eosTok [] (pyReplace sosTok []
          (pyReplace padTok []
            ((ids.map v.lookup_token).takeWhile (fun t => t ≠ eosTok)).flatten)) := rfl
  have hTmem : ∀ t ∈ (ids.map v.lookup_token).takeWhile (fun t => t ≠ eosTok),
      t ≠ eosTok ∧ (t = padTok ∨ t = unkTok ∨ t = sosTok ∨ ∀ c ∈ t, c ≠ '<') := by
    intro t htm
    have hne : t ≠ eosTok := by simpa using List.mem_takeWhile_imp htm
    refine ⟨hne, ?_⟩
    have h1 : t ∈ ids.map v.lookup_token := (List.takeWhile_sublist _).subset htm
    obtain ⟨i, _, rfl⟩ := List.mem_map.mp h1
    rcases lookup_token_cases v i with hmem | hnil
    · rcases hv _ hmem with h | h | h | h | h
      · exact Or.inl h
      · exact Or.inr (Or.inl h)
      · exact Or.inr (Or.inr (Or.inl h))
      · exact absurd h hne
      · exact Or.inr (Or.inr (Or.inr h))
    · rw [hnil]
      exact Or.inr (Or.inr (Or.inr (by simp)))
  generalize hTg : (ids.map v.lookup_token).takeWhile (fun t => t ≠ eosTok) = T at hdec hTmem
  have hs1 := strip_step padTok '<' ['p', 'a', 'd', '>'] (by decide) rfl (by decide) T
    (fun t htm => (hTmem t htm).2)
  have hT1 : ∀ t ∈ T.filter (fun t => t ≠ padTok),
      t ≠ eosTok ∧ (t = padTok ∨ t = unkTok ∨ t = sosTok ∨ ∀ c ∈ t, c ≠ '<') :=
    fun t htm => hTmem t (List.mem_of_mem_filter htm)
  have hs2 := strip_step sosTok '<' ['s', 'o', 's', '>'] (by decide) rfl (by decide)
    (T.filter (fun t => t ≠ padTok)) (fun t htm => (hT1 t htm).2)
  have hT2 : ∀ t ∈ (T.filter (fun t => t ≠ padTok)).filter (fun t => t ≠ sosTok),
      t ≠ eosTok ∧ (t = padTok ∨ t = unkTok ∨ t = sosTok ∨ ∀ c ∈ t, c ≠ '<') :=
    fun t htm => hT1 t (List.mem_of_mem_filter htm)
  have hs3 := strip_step eosTok '<' ['e', 'o', 's', '>'] (by decide) rfl (by decide)
    ((T.filter (fun t => t ≠ padTok)).filter (fun t => t ≠ sosTok))
    (fun t htm => (hT2 t htm).2)
  have hT3mem : ∀ t ∈ ((T.filter (fun t => t ≠ padTok)).filter
        (fun t => t ≠ sosTok)).filter (fun t => t ≠ eosTok),
      (t = unkTok ∨ ∀ c ∈ t, c ≠ '<') ∧ t ≠ padTok ∧ t ≠ sosTok ∧ t ≠ eosTok := by
    intro t htm
    have h3 : t ∈ (T.filter (fun t => t ≠ padTok)).filter (fun t => t ≠ sosTok) :=
      List.mem_of_mem_filter htm
    have h2 : t ∈ T.filter (fun t => t ≠ padTok) := List.mem_of_mem_filter h3
    have h1 : t ∈ T := List.mem_of_mem_filter h2
    have hnp : t ≠ padTok := by simpa using List.of_mem_filter h2
    have hns : t ≠ sosTok := by simpa using List.of_mem_filter h3
    have hne : t ≠ eosTok := (hTmem t h1).1
    refine ⟨?_, hnp, hns, hne⟩
    rcases (hTmem t h1).2 with h | h | h | h
    · exact absurd h hnp
    · exact Or.inl h
    · exact absurd h hns
    · exact Or.inr h
  refine ⟨?_, ?_, ?_⟩
  · intro pre post
    rw [hdec, hs1, hs2, hs3]
    exact no_occ_step padTok '<' ['p', 'a', 'd', '>'] (by decide) rfl (by decide) _
      (fun t htm => (hT3mem t htm).1) (fun t htm => (hT3mem t htm).2.1) pre post
  · intro pre post
    rw [hdec, hs1, hs2, hs3]
    exact no_occ_step sosTok '<' ['s', 'o', 's', '>'] (by decide) rfl (by decide) _
      (fun t htm => (hT3mem t htm).1) (fun t htm => (hT3mem t htm).2.2.1) pre post
  · intro pre post
    rw [hdec, hs1, hs2, hs3]
    exact no_occ_step eosTok '<' ['e', 'o', 's', '>'] (by decide) rfl (by decide) _
      (fun t htm => (hT3mem t htm).1) (fun t htm => (hT3mem t htm).2.2.2) pre post

/-- Witness for the amended claim C5: a concrete decode containing a pad id
inside the sequence; no pad text survives in the output. -/
theorem decode_sequence_strips_pad_sos_eos_witness :
    decode_sequence sampleVocab [2, 4, 4, 0, 3] ≠ [] ++ padTok ++ [] :=
  (decode_sequence_strips_pad_sos_eos sampleVocab (by decide) [2, 4, 4, 0, 3]).1 [] []

/-- Claim C5, counterexample: an argmax output hitting the unknown id leaves
the unknown-token text verbatim in the decoded string, because the code
replaces only the pad, start and end marker texts. -/
theorem decode_sequence_unk_remains_ce :
    decode_sequence sampleVocab [4, 1] = ['C'] ++ unkTok ++ [] := by decide

end DRP
